import Mathlib

/-
Verification of the minimal-unique-prefix trie in `src/bcachectl.py`.

The Python class `Trie` stores, per node, a dict `children` mapping a
single character to a child `Trie`.  We embed a node as a constructor
holding an association list with (by the dict invariant) unique keys kept
in insertion order; `lookupA` is dict lookup, `setA` is assignment to an
existing dict key, and appending models adding a fresh key (Python dicts
preserve insertion order, new keys go last).

Fallible paths are explicit: `Trie.insert`, `Trie.find` and `Trie.shorten`
raise IndexError on an empty key in Python; the embeddings return `none`
(for insert) or a dedicated `crash` result value, kept distinct from the
ordinary `False` ("absent"/"not found") return.
-/

inductive Trie where
  | node : List (Char × Trie) → Trie

/-- The empty trie, `Trie()` in the source. -/
def TNil : Trie := .node []

def Trie.children : Trie → List (Char × Trie)
  | .node cs => cs

/-- Python `ch in self.children` / `self.children[ch]`: lookup in the dict,
modelled as first-match lookup in the association list. -/
def lookupA : List (Char × Trie) → Char → Option Trie
  | [], _ => none
  | (c, v) :: rest, ch => if c = ch then some v else lookupA rest ch

/-- Python `self.children[ch] = v` for a key `ch` that is already present:
replace the value stored under `ch`, keeping dict order. -/
def setA (cs : List (Char × Trie)) (ch : Char) (v : Trie) : List (Char × Trie) :=
  cs.map (fun p => if p.1 = ch then (ch, v) else p)

/-- `Trie.insert` on the nonempty key `ch :: rest`: add a fresh child for
`ch` if absent (at the end, as a Python dict does), then recurse into the
child while the key has more symbols. -/
def Trie.insertNE : Trie → Char → List Char → Trie
  | .node cs, ch, rest =>
    let cs1 := if (lookupA cs ch).isSome then cs else cs ++ [(ch, TNil)]
    match rest with
    | [] => .node cs1
    | r :: rs => .node (setA cs1 ch (((lookupA cs1 ch).getD TNil).insertNE r rs))

/-- Python `Trie.insert`.  `key[0]` raises IndexError on an empty key
before any mutation, so the empty-key case yields `none` and no trie. -/
def Trie.insert : Trie → List Char → Option Trie
  | _, [] => none
  | t, ch :: rest => some (t.insertNE ch rest)

/-- The three kinds of value Python `Trie.find` can produce — `False`,
a `str`, or a `(str, Trie)` tuple — plus `crash` for the IndexError that
an empty search key raises. -/
inductive FRes where
  | crash : FRes
  | fls : FRes
  | str : List Char → FRes
  | amb : List Char → Trie → FRes

/-- The `key is None` branch of Python `Trie.find`: at the end of the
search key, a childless node ends a unique match, a single child is
followed (prepending its symbol), and two or more children report the
ambiguity together with the branching node itself. -/
def Trie.findAux : Trie → FRes
  | .node [] => .str []
  | .node [(ch, child)] =>
    match child.findAux with
    | .str tail => .str (ch :: tail)
    | .fls => .fls
    | .crash => .crash
    | .amb tail sub => .amb (ch :: tail) sub
  | .node cs => .amb [] (.node cs)

/-- Python `Trie.find` on a nonempty key `ch :: rest`: follow `ch`, then
either recurse on the rest of the key or switch to the `None` phase, and
prepend `ch` to a `str` or tuple result. -/
def Trie.findNE : Trie → Char → List Char → FRes
  | t, ch, rest =>
    match lookupA t.children ch with
    | none => .fls
    | some child =>
      match (match rest with
             | [] => child.findAux
             | r :: rs => child.findNE r rs) with
      | .str tail => .str (ch :: tail)
      | .fls => .fls
      | .crash => .crash
      | .amb tail sub => .amb (ch :: tail) sub

/-- Python `Trie.find` as called by users, on a string key.  An empty key
reaches `key[0]` and raises IndexError. -/
def Trie.find : Trie → List Char → FRes
  | _, [] => .crash
  | t, ch :: rest => t.findNE ch rest

/-- Results of Python `Trie.shorten`: `False`, a prefix string, or the
IndexError `items[-1]` raises when the key is empty. -/
inductive SRes where
  | crash : SRes
  | fls : SRes
  | pre : List Char → SRes

/-- The first loop of `Trie.shorten`: walk the trie along the key,
collecting the node reached after each symbol (the Python `items` list);
`none` when some symbol has no matching child. -/
def walkItems : Trie → List Char → Option (List Trie)
  | _, [] => some []
  | t, ch :: rest =>
    match lookupA t.children ch with
    | none => none
    | some child => (walkItems child rest).map (fun l => child :: l)

/-- The backward `offset` loop of `Trie.shorten`, entered at
`offset = len(items) - 2`: step back over nodes with exactly one child;
at the first other node return `key[:max(offset + 2, minlen)]`; if the
loop runs out, return `key[:minlen]`. -/
def scanLoop (key : List Char) (items : List Trie) (minlen : Nat) : Nat → List Char
  | 0 =>
    if ((items.getD 0 TNil).children).length = 1 then key.take minlen
    else key.take (max 2 minlen)
  | m + 1 =>
    if ((items.getD (m + 1) TNil).children).length = 1 then scanLoop key items minlen m
    else key.take (max (m + 3) minlen)

/-- Python `Trie.shorten`.  The walk failing or the final node still
having children give `False`; an empty key raises IndexError at
`items[-1]`; otherwise the backward scan (or, when there is at most one
recorded node, the fall-through) returns a prefix of the key. -/
def Trie.shorten (t : Trie) (key : List Char) (minlen : Nat) : SRes :=
  match walkItems t key with
  | none => .fls
  | some items =>
    match items.getLast? with
    | none => .crash
    | some last =>
      if last.children.length ≠ 0 then .fls
      else if 2 ≤ items.length then .pre (scanLoop key items minlen (items.length - 2))
      else .pre (key.take minlen)

mutual
/-- Python `Trie.prefixes` (with the accumulated prefix `acc`, Python's
`prefix` parameter with `None` replaced by `""`): a childless node yields
`acc`; a single-child node yields `acc` once it is long enough, otherwise
descends; any other node descends into every child. -/
def Trie.prefixes (t : Trie) (acc : List Char) (minlen : Nat) : Finset (List Char) :=
  match t with
  | .node cs =>
    if cs.length = 0 then {acc}
    else if cs.length = 1 ∧ minlen ≤ acc.length then {acc}
    else prefixesL cs acc minlen

/-- The `for ch, v in self.children.items()` loop of `Trie.prefixes`:
union of the recursive calls over all children. -/
def prefixesL (cs : List (Char × Trie)) (acc : List Char) (minlen : Nat) : Finset (List Char) :=
  match cs with
  | [] => ∅
  | (ch, v) :: rest => v.prefixes (acc ++ [ch]) minlen ∪ prefixesL rest acc minlen
end

mutual
/-- The invariant every trie built from Python dicts satisfies: at every
node the child symbols are pairwise distinct. -/
def Trie.wf : Trie → Bool
  | .node cs => decide ((cs.map Prod.fst).Nodup) && wfL cs

def wfL : List (Char × Trie) → Bool
  | [] => true
  | (_, v) :: rest => v.wf && wfL rest
end

/-- Follow a path of symbols from a node; used to state which nodes a
trie contains. -/
def subAt : Trie → List Char → Option Trie
  | t, [] => some t
  | t, ch :: rest =>
    match lookupA t.children ch with
    | none => none
    | some c => subAt c rest

/-- The string component of an ambiguous `find` result, if any. -/
def ambExt : FRes → Option (List Char)
  | .amb s _ => some s
  | _ => none

/-- Number of children of `items[i]` (for the backward scan of
`shorten`). -/
def childCount (items : List Trie) (i : Nat) : Nat :=
  ((items.getD i TNil).children).length

/-- The offset-dependent part of the backward scan: the cut length the
scan settles on before the `minlen` clamp (`0` when no branching node is
found). -/
def scanOffset (items : List Trie) : Nat → Nat
  | 0 =>
    if ((items.getD 0 TNil).children).length = 1 then 0
    else 2
  | m + 1 =>
    if ((items.getD (m + 1) TNil).children).length = 1 then scanOffset items m
    else m + 3

/-- The cut length `shorten` uses for a key whose walk produced `items`. -/
def shortenOff (items : List Trie) : Nat :=
  if 2 ≤ items.length then scanOffset items (items.length - 2) else 0

/-- Trie after inserting `"12345678"` and `"1234abcd"` (scenario 5 of the
spec and the `shorten` doctest). -/
def T45 : Trie :=
  (TNil.insertNE '1' (String.toList "2345678")).insertNE '1' (String.toList "234abcd")

/-- Trie after inserting `"larry"`, `"moe"`, `"curly"`, `"clinton"`
(scenario 3 of the spec and the class doctest). -/
def T3 : Trie :=
  (((TNil.insertNE 'l' (String.toList "arry")).insertNE 'm'
      (String.toList "oe")).insertNE 'c'
      (String.toList "urly")).insertNE 'c' (String.toList "linton")

/-- Trie holding the single key `"ab"`. -/
def Tab : Trie := TNil.insertNE 'a' (String.toList "b")

/-! ### Basic facts about the walk -/

theorem walk_length : ∀ {t : Trie} {k : List Char} {its : List Trie},
    walkItems t k = some its → its.length = k.length := by
  intro t k
  induction k generalizing t with
  | nil =>
    intro its h
    simp only [walkItems, Option.some.injEq] at h
    simp [← h]
  | cons ch rest ih =>
    intro its h
    cases hl : lookupA t.children ch with
    | none => simp only [walkItems, hl] at h; exact Option.noConfusion h
    | some child =>
      simp only [walkItems, hl] at h
      cases hwr : walkItems child rest with
      | none => rw [hwr] at h; exact absurd h (by simp)
      | some l =>
        rw [hwr] at h
        simp only [Option.map_some', Option.some.injEq] at h
        rw [← h]
        simp [ih hwr]

theorem walk_append_split : ∀ {a b : List Char} {t : Trie} {its : List Trie},
    walkItems t (a ++ b) = some its →
    ∃ ia ib, walkItems t a = some ia ∧ walkItems (ia.getLastD t) b = some ib ∧
      its = ia ++ ib := by
  intro a
  induction a with
  | nil =>
    intro b t its h
    exact ⟨[], its, rfl, by simpa using h, rfl⟩
  | cons ch a' ih =>
    intro b t its h
    rw [List.cons_append] at h
    cases hl : lookupA t.children ch with
    | none => simp only [walkItems, hl] at h; exact Option.noConfusion h
    | some child =>
      simp only [walkItems, hl] at h
      cases hwr : walkItems child (a' ++ b) with
      | none => rw [hwr] at h; exact absurd h (by simp)
      | some l =>
        rw [hwr] at h
        simp only [Option.map_some', Option.some.injEq] at h
        obtain ⟨ia', ib, h1, h2, h3⟩ := ih hwr
        refine ⟨child :: ia', ib, ?_, ?_, ?_⟩
        · simp [walkItems, hl, h1]
        · rwa [List.getLastD_cons]
        · rw [← h, h3]; rfl

/-! ### The backward scan of `shorten` -/

theorem scanLoop_eq (key : List Char) (items : List Trie) (m : Nat) :
    ∀ n, scanLoop key items m n = key.take (max (scanOffset items n) m) := by
  intro n
  induction n with
  | zero =>
    simp only [scanLoop, scanOffset]
    by_cases h : ((items.getD 0 TNil).children).length = 1
    · rw [if_pos h, if_pos h]
      simp
    · rw [if_neg h, if_neg h]
  | succ k ih =>
    simp only [scanLoop, scanOffset]
    by_cases h : ((items.getD (k + 1) TNil).children).length = 1
    · rw [if_pos h, if_pos h]
      exact ih
    · rw [if_neg h, if_neg h]

theorem scanOffset_spec (items : List Trie) :
    ∀ n, (scanOffset items n = 0 ∧ ∀ i, i ≤ n → childCount items i = 1) ∨
      (∃ j, j ≤ n ∧ scanOffset items n = j + 2 ∧ childCount items j ≠ 1 ∧
        ∀ i, j < i → i ≤ n → childCount items i = 1) := by
  intro n
  induction n with
  | zero =>
    by_cases h : childCount items 0 = 1
    · left
      have h' : ((items.getD 0 TNil).children).length = 1 := h
      refine ⟨by rw [scanOffset, if_pos h'], ?_⟩
      intro i hi
      have : i = 0 := Nat.le_zero.mp hi
      rw [this]; exact h
    · right
      refine ⟨0, Nat.le_refl 0, ?_, h, ?_⟩
      · have h' : ¬((items.getD 0 TNil).children).length = 1 := h
        rw [scanOffset, if_neg h']
      · intro i h1 h2; omega
  | succ k ih =>
    by_cases h : childCount items (k + 1) = 1
    · have h' : ((items.getD (k + 1) TNil).children).length = 1 := h
      have hs : scanOffset items (k + 1) = scanOffset items k := by
        rw [scanOffset, if_pos h']
      rcases ih with ⟨h0, hall⟩ | ⟨j, hj, he, hone, hup⟩
      · left
        refine ⟨by rw [hs]; exact h0, ?_⟩
        intro i hi
        by_cases hik : i = k + 1
        · rw [hik]; exact h
        · exact hall i (by omega)
      · right
        refine ⟨j, Nat.le_succ_of_le hj, by rw [hs]; exact he, hone, ?_⟩
        intro i h1 h2
        by_cases hik : i = k + 1
        · rw [hik]; exact h
        · exact hup i h1 (by omega)
    · right
      refine ⟨k + 1, Nat.le_refl _, ?_, h, ?_⟩
      · have h' : ¬((items.getD (k + 1) TNil).children).length = 1 := h
        rw [scanOffset, if_neg h']
      · intro i h1 h2; omega

/-! ### Characterizing `shorten` -/

theorem shorten_nil (t : Trie) (m : Nat) : t.shorten [] m = .crash := rfl

theorem getLast?_of_ne_nil {l : List Trie} (h : l ≠ []) :
    l.getLast? = some (l.getLastD TNil) := by
  rw [List.getLastD_eq_getLast?]
  cases hgl : l.getLast? with
  | none =>
    have := List.getLast?_isSome.mpr h
    rw [hgl] at this
    exact absurd this (by simp)
  | some x => rfl

theorem walk_ne_nil {t : Trie} {key : List Char} {items : List Trie}
    (hne : key ≠ []) (hw : walkItems t key = some items) : items ≠ [] := by
  intro h
  have hlen := walk_length hw
  rw [h] at hlen
  exact hne (List.length_eq_zero.mp hlen.symm)

theorem shorten_eq_pre {t : Trie} {key : List Char} {items : List Trie}
    (hne : key ≠ []) (hw : walkItems t key = some items)
    (hleaf : (items.getLastD TNil).children = []) :
    ∀ m, t.shorten key m = .pre (key.take (max (shortenOff items) m)) := by
  intro m
  have hg := getLast?_of_ne_nil (walk_ne_nil hne hw)
  simp only [Trie.shorten, hw, hg, hleaf, List.length_nil, ne_eq, not_true_eq_false,
    not_false_eq_true, if_false, if_true, ite_false, ite_true]
  by_cases h2 : 2 ≤ items.length
  · rw [if_pos h2, scanLoop_eq, shortenOff, if_pos h2]
  · rw [if_neg h2, shortenOff, if_neg h2]
    simp

theorem shorten_fls_of {t : Trie} {key : List Char} (m : Nat) (hne : key ≠ [])
    (hcond : walkItems t key = none ∨
      ∃ items, walkItems t key = some items ∧ (items.getLastD TNil).children ≠ []) :
    t.shorten key m = .fls := by
  rcases hcond with hw | ⟨items, hw, hc⟩
  · simp only [Trie.shorten, hw]
  · have hg := getLast?_of_ne_nil (walk_ne_nil hne hw)
    have hn0 : (items.getLastD TNil).children.length ≠ 0 := by
      intro h0
      exact hc (List.length_eq_zero.mp h0)
    simp only [Trie.shorten, hw, hg]
    rw [if_pos hn0]

theorem shorten_cases (t : Trie) (key : List Char) (m : Nat) (hne : key ≠ []) :
    (t.shorten key m = .fls ∧ (walkItems t key = none ∨
        ∃ items, walkItems t key = some items ∧ (items.getLastD TNil).children ≠ [])) ∨
    (∃ items, walkItems t key = some items ∧ (items.getLastD TNil).children = [] ∧
        t.shorten key m = .pre (key.take (max (shortenOff items) m))) := by
  cases hw : walkItems t key with
  | none => exact Or.inl ⟨shorten_fls_of m hne (Or.inl hw), Or.inl rfl⟩
  | some items =>
    by_cases hc : (items.getLastD TNil).children = []
    · exact Or.inr ⟨items, rfl, hc, shorten_eq_pre hne hw hc m⟩
    · exact Or.inl ⟨shorten_fls_of m hne (Or.inr ⟨items, hw, hc⟩),
        Or.inr ⟨items, rfl, hc⟩⟩

/-! ### Claims about `shorten` alone -/

/-- C4: for every trie, nonempty key and `minlen ≥ 1`, `shorten` returns
absent (Python `False`) exactly when the root-down walk finds no matching
child for some symbol, or the node reached after consuming the entire key
still has children; in every other case it returns a prefix of the key
(`shorten` never returns an ambiguous result — `SRes` has no such value,
and the non-absent outcome is always a concrete prefix). -/
theorem shorten_absent_iff (t : Trie) (key : List Char) (minlen : Nat)
    (hne : key ≠ []) (hm : 1 ≤ minlen) :
    (t.shorten key minlen = .fls ↔
      (walkItems t key = none ∨
        ∃ items, walkItems t key = some items ∧ (items.getLastD TNil).children ≠ [])) ∧
    (t.shorten key minlen ≠ .fls →
      ∃ p, t.shorten key minlen = .pre p ∧ p <+: key) := by
  rcases shorten_cases t key minlen hne with ⟨hf, hcond⟩ | ⟨items, hw, hleaf, hp⟩
  · exact ⟨⟨fun _ => hcond, fun _ => hf⟩, fun hn => absurd hf hn⟩
  · constructor
    · constructor
      · intro h
        rw [hp] at h
        exact absurd h (by simp)
      · rintro (h0 | ⟨items', hw', hc'⟩)
        · rw [hw] at h0
          exact absurd h0 (by simp)
        · rw [hw] at hw'
          injection hw' with he
          rw [← he] at hc'
          exact absurd hleaf hc'
    · intro _
      exact ⟨_, hp, List.take_prefix _ _⟩

theorem shorten_absent_iff_app : T45.shorten (String.toList "12345") 1 = SRes.fls := by
  have h := (shorten_absent_iff T45 (String.toList "12345") 1 (by decide) (by decide)).1
  exact h.mpr (Or.inr ⟨(walkItems T45 (String.toList "12345")).getD [], rfl,
    fun hcl => absurd (congrArg List.length hcl) (by decide)⟩)

/-- C5 counterexample: the claim says a returned prefix always has length
at least `minlen`, including when `minlen` exceeds the key length; but
Python slicing clamps at the key length: with only `"ab"` inserted,
`shorten("ab", minlen=5)` returns `"ab"`, of length `2 < 5`. -/
theorem shorten_minlen_clamp_cex :
    Tab.shorten (String.toList "ab") 5 = SRes.pre (String.toList "ab") ∧
      (String.toList "ab").length < 5 := ⟨rfl, by decide⟩

/-- C5 (amended): whenever `shorten` returns a symbol sequence, that
sequence is a prefix of the key of length at least
`min minlen (length key)` — the `minlen` floor holds whenever `minlen`
does not exceed the key length, and is clamped to the key length
otherwise. -/
theorem shorten_result_length (t : Trie) (key p : List Char) (minlen : Nat)
    (hne : key ≠ []) (hm : 1 ≤ minlen)
    (hp : t.shorten key minlen = SRes.pre p) :
    p <+: key ∧ min minlen key.length ≤ p.length := by
  rcases shorten_cases t key minlen hne with ⟨hf, _⟩ | ⟨items, hw, hleaf, hpre⟩
  · rw [hf] at hp
    exact absurd hp (by simp)
  · rw [hpre] at hp
    injection hp with he
    rw [← he]
    refine ⟨List.take_prefix _ _, ?_⟩
    rw [List.length_take]
    omega

theorem shorten_result_length_app :
    (String.toList "ab") <+: (String.toList "ab") ∧
      min 5 (String.toList "ab").length ≤ (String.toList "ab").length :=
  shorten_result_length Tab (String.toList "ab") (String.toList "ab") 5
    (by decide) (by decide) rfl

/-- C6: for a fixed trie and key, raising `minlen` never shrinks
`shorten`'s result: absence (and the empty-key crash) do not depend on
`minlen` at all, and when both calls return prefixes the larger `minlen`
gives a result at least as long. -/
theorem shorten_minlen_monotone (t : Trie) (key : List Char) (m1 m2 : Nat)
    (h12 : m1 ≤ m2) :
    (t.shorten key m1 = .fls ↔ t.shorten key m2 = .fls) ∧
    (t.shorten key m1 = .crash ↔ t.shorten key m2 = .crash) ∧
    (∀ p1, t.shorten key m1 = .pre p1 →
      ∃ p2, t.shorten key m2 = .pre p2 ∧ p1.length ≤ p2.length) := by
  by_cases hne : key = []
  · subst hne
    rw [shorten_nil, shorten_nil]
    exact ⟨Iff.rfl, Iff.rfl, fun p1 hp => absurd hp (by simp)⟩
  · rcases shorten_cases t key m1 hne with ⟨hf1, hcond⟩ | ⟨items, hw, hleaf, hp1⟩
    · have hf2 := shorten_fls_of m2 hne hcond
      rw [hf1, hf2]
      exact ⟨Iff.rfl, Iff.rfl, fun p1 hp => absurd hp (by simp)⟩
    · have hp2 := shorten_eq_pre hne hw hleaf m2
      rw [hp1, hp2]
      refine ⟨by simp, by simp, ?_⟩
      intro p1 hp
      injection hp with he
      refine ⟨_, rfl, ?_⟩
      rw [← he, List.length_take, List.length_take]
      omega

theorem shorten_minlen_monotone_app :
    T45.shorten (String.toList "12345678") 1 = SRes.fls ↔
      T45.shorten (String.toList "12345678") 6 = SRes.fls :=
  (shorten_minlen_monotone T45 (String.toList "12345678") 1 6 (by decide)).1

/-- C10: inserting the malformed (empty) key is rejected at the boundary:
Python evaluates `key[0]` before touching any state, so the IndexError
fires with no node created and no children mapping modified; the
embedding accordingly produces no successor trie at all, leaving the
original value as the only trie state. -/
theorem insert_empty_rejected (t : Trie) : t.insert [] = none := rfl

/-- C1: when a key is present as a root-to-leaf path whose leaf has no
children and the backward scan from the node just before the leaf finds a
node with two or more children at offset `j` (all nodes strictly between
it and the leaf having exactly one child), `shorten` returns the prefix
of the key of length `(j + 1) + 1` — one more than the number of symbols
consumed to reach the branching node — clamped upward to `minlen` (the
prefix is cut from the key, so it cannot outgrow the key itself); in
particular after inserting `"12345678"` and `"1234abcd"`,
`shorten("12345678")` is `"12345"` (see the witness). -/
theorem shorten_branch_exact (t : Trie) (key : List Char) (minlen j : Nat)
    (items : List Trie)
    (hw : walkItems t key = some items)
    (hleaf : (items.getLastD TNil).children = [])
    (hj : j + 2 ≤ key.length)
    (hbr : 2 ≤ childCount items j)
    (hone : ∀ i, j < i → i + 2 ≤ key.length → childCount items i = 1) :
    t.shorten key minlen = .pre (key.take (max (j + 2) minlen)) := by
  have hlen : items.length = key.length := walk_length hw
  have hne : key ≠ [] := by
    intro h
    rw [h] at hj
    simp at hj
  have h2 : 2 ≤ items.length := by omega
  have hoff : shortenOff items = j + 2 := by
    rw [shortenOff, if_pos h2]
    rcases scanOffset_spec items (items.length - 2) with ⟨h0, hall⟩ | ⟨j', hj', he, hone', hup⟩
    · exfalso
      have := hall j (by omega)
      omega
    · have hjj : j' = j := by
        by_contra hne'
        rcases Nat.lt_or_ge j' j with hlt | hge
        · have := hup j hlt (by omega)
          omega
        · have hgt : j < j' := by omega
          have := hone j' hgt (by omega)
          exact hone' this
      rw [he, hjj]
  rw [shorten_eq_pre hne hw hleaf minlen, hoff]

theorem shorten_branch_exact_app :
    T45.shorten (String.toList "12345678") 1 = SRes.pre (String.toList "12345") := by
  have h := shorten_branch_exact T45 (String.toList "12345678") 1 3
    ((walkItems T45 (String.toList "12345678")).getD []) rfl rfl (by decide) (by decide)
    (by
      intro i h1 h2
      have h2' : i ≤ 6 := by
        have h8 : i + 2 ≤ 8 := h2
        omega
      interval_cases i <;> decide)
  exact h

/-! ### List index helpers -/

theorem getLastD_congr {l : List Trie} (h : l ≠ []) (d1 d2 : Trie) :
    l.getLastD d1 = l.getLastD d2 := by
  rw [List.getLastD_eq_getLast?, List.getLastD_eq_getLast?]
  cases hgl : l.getLast? with
  | none =>
    have := List.getLast?_isSome.mpr h
    rw [hgl] at this
    exact absurd this (by simp)
  | some x => rfl

theorem getLastD_append_right {l1 l2 : List Trie} (h : l2 ≠ []) (d : Trie) :
    (l1 ++ l2).getLastD d = l2.getLastD d := by
  rw [List.getLastD_eq_getLast?, List.getLastD_eq_getLast?, List.getLast?_append]
  cases hgl : l2.getLast? with
  | none =>
    have := List.getLast?_isSome.mpr h
    rw [hgl] at this
    exact absurd this (by simp)
  | some x => rfl

theorem getLastD_eq_getD {l : List Trie} (d : Trie) :
    l.getLastD d = l.getD (l.length - 1) d := by
  rw [List.getLastD_eq_getLast?, List.getLast?_eq_getElem?, List.getD_eq_getElem?_getD]

theorem getD_append_left {l1 l2 : List Trie} {i : Nat} (h : i < l1.length) (d : Trie) :
    (l1 ++ l2).getD i d = l1.getD i d := by
  rw [List.getD_eq_getElem?_getD, List.getD_eq_getElem?_getD, List.getElem?_append, if_pos h]

theorem getD_append_right2 {l1 l2 : List Trie} {i : Nat} (h : l1.length ≤ i) (d : Trie) :
    (l1 ++ l2).getD i d = l2.getD (i - l1.length) d := by
  rw [List.getD_eq_getElem?_getD, List.getD_eq_getElem?_getD, List.getElem?_append,
    if_neg (by omega)]

/-! ### Singleton children -/

theorem children_length_one {t : Trie} (h : t.children.length = 1) :
    ∃ a b, t.children = [(a, b)] := by
  obtain ⟨cs⟩ := t
  cases cs with
  | nil => simp [Trie.children] at h
  | cons p rest =>
    cases rest with
    | nil =>
      obtain ⟨a, b⟩ := p
      exact ⟨a, b, rfl⟩
    | cons q r => simp [Trie.children] at h

theorem lookupA_singleton {a : Char} {b : Trie} {x : Char} {y : Trie}
    (h : lookupA [(a, b)] x = some y) : a = x ∧ b = y := by
  simp only [lookupA] at h
  by_cases hax : a = x
  · rw [if_pos hax] at h
    injection h with h'
    exact ⟨hax, h'⟩
  · rw [if_neg hax] at h
    exact absurd h (by simp)

/-! ### The recursion-finishing phase of `find` on an unambiguous chain -/

theorem findAux_chain : ∀ (suffix : List Char) (n : Trie) (its : List Trie),
    walkItems n suffix = some its →
    (∀ i, i + 1 < (n :: its).length → childCount (n :: its) i = 1) →
    ((n :: its).getLastD TNil).children = [] →
    n.findAux = .str suffix := by
  intro suffix
  induction suffix with
  | nil =>
    intro n its hw hchain hlast
    have hits : its = [] := by
      simp only [walkItems, Option.some.injEq] at hw
      exact hw.symm
    subst hits
    rw [List.getLastD_cons, List.getLastD_nil] at hlast
    obtain ⟨cs⟩ := n
    simp only [Trie.children] at hlast
    subst hlast
    rfl
  | cons ch rest ih =>
    intro n its hw hchain hlast
    cases hl : lookupA n.children ch with
    | none =>
      simp only [walkItems, hl] at hw
      exact Option.noConfusion hw
    | some child =>
      simp only [walkItems, hl] at hw
      cases hwr : walkItems child rest with
      | none =>
        rw [hwr] at hw
        exact absurd hw (by simp)
      | some l =>
        rw [hwr] at hw
        simp only [Option.map_some', Option.some.injEq] at hw
        subst hw
        have hn1 : n.children.length = 1 := by
          have := hchain 0 (by simp)
          simpa [childCount] using this
        obtain ⟨a, b, hab⟩ := children_length_one hn1
        rw [hab] at hl
        obtain ⟨hax, hby⟩ := lookupA_singleton hl
        have hrec : child.findAux = .str rest := by
          apply ih child l hwr
          · intro i hi
            have := hchain (i + 1) (by simp at hi ⊢; omega)
            simpa [childCount, List.getD_cons_succ] using this
          · rw [List.getLastD_cons] at hlast
            rw [getLastD_congr (by simp : (child :: l) ≠ []) TNil n]
            exact hlast
        obtain ⟨cs⟩ := n
        simp only [Trie.children] at hab
        subst hab
        show Trie.findAux (.node [(a, b)]) = _
        rw [Trie.findAux, hby, hrec, hax]

/-! ### One-step unfoldings of `findNE` -/

theorem findNE_none {t : Trie} {ch : Char} (rest : List Char)
    (hl : lookupA t.children ch = none) : t.findNE ch rest = .fls := by
  conv_lhs => rw [Trie.findNE]
  rw [hl]

theorem findNE_some_nil {t : Trie} {ch : Char} {child : Trie}
    (hl : lookupA t.children ch = some child) :
    t.findNE ch [] =
      (match child.findAux with
       | .str tail => .str (ch :: tail)
       | .fls => .fls
       | .crash => .crash
       | .amb tail sub => .amb (ch :: tail) sub) := by
  conv_lhs => rw [Trie.findNE]
  rw [hl]

theorem findNE_some_cons {t : Trie} {ch : Char} {child : Trie} (r : Char) (rs : List Char)
    (hl : lookupA t.children ch = some child) :
    t.findNE ch (r :: rs) =
      (match child.findNE r rs with
       | .str tail => .str (ch :: tail)
       | .fls => .fls
       | .crash => .crash
       | .amb tail sub => .amb (ch :: tail) sub) := by
  conv_lhs => rw [Trie.findNE]
  rw [hl]

/-! ### `find` after consuming a walked prefix -/

theorem find_walk : ∀ (p : List Char) (t : Trie) (pits : List Trie),
    p ≠ [] → walkItems t p = some pits →
    t.find p = (match (pits.getLastD TNil).findAux with
                | .str s => .str (p ++ s)
                | .fls => .fls
                | .crash => .crash
                | .amb s sub => .amb (p ++ s) sub) := by
  intro p
  induction p with
  | nil =>
    intro t pits h
    exact absurd rfl h
  | cons ch rest ih =>
    intro t pits _ hw
    cases hl : lookupA t.children ch with
    | none =>
      simp only [walkItems, hl] at hw
      exact Option.noConfusion hw
    | some child =>
      simp only [walkItems, hl] at hw
      cases hwr : walkItems child rest with
      | none =>
        rw [hwr] at hw
        exact absurd hw (by simp)
      | some l =>
        rw [hwr] at hw
        simp only [Option.map_some', Option.some.injEq] at hw
        subst hw
        cases rest with
        | nil =>
          have hl0 : l = [] := by
            have := walk_length hwr
            simpa using this
          subst hl0
          show t.findNE ch [] = _
          rw [List.getLastD_cons, List.getLastD_nil]
          rw [findNE_some_nil hl]
          cases child.findAux <;> rfl
        | cons r rs =>
          have hrec := ih child l (by simp) hwr
          show t.findNE ch (r :: rs) = _
          rw [findNE_some_cons r rs hl]
          have hfind : child.findNE r rs = child.find (r :: rs) := rfl
          rw [hfind, hrec, List.getLastD_cons]
          rw [getLastD_congr ?hnn child TNil]
          case hnn =>
            intro h0
            rw [h0] at hwr
            have := walk_length hwr
            simp at this
          cases (l.getLastD TNil).findAux <;> rfl

/-! ### Unique resolution of a taken prefix -/

theorem find_take_unique (t : Trie) (key : List Char) (items : List Trie) (L : Nat)
    (hw : walkItems t key = some items)
    (hleaf : (items.getLastD TNil).children = [])
    (h1 : 1 ≤ L) (h2 : L ≤ key.length)
    (hchain : ∀ i, L - 1 ≤ i → i + 2 ≤ key.length → childCount items i = 1) :
    t.find (key.take L) = .str key := by
  have hlen := walk_length hw
  have hsplit : walkItems t (key.take L ++ key.drop L) = some items := by
    rw [List.take_append_drop]
    exact hw
  obtain ⟨ia, ib, hwa, hwb, hcat⟩ := walk_append_split hsplit
  have hialen : ia.length = L := by
    have := walk_length hwa
    rw [this, List.length_take]
    omega
  have hiblen : ib.length = key.length - L := by
    have := walk_length hwb
    rw [this, List.length_drop]
  have hiane : ia ≠ [] := by
    intro h
    rw [h] at hialen
    simp at hialen
    omega
  have hptake : key.take L ≠ [] := by
    intro h
    have := congrArg List.length h
    rw [List.length_take] at this
    simp only [List.length_nil] at this
    omega
  have hfa : (ia.getLastD TNil).findAux = .str (key.drop L) := by
    apply findAux_chain (key.drop L) (ia.getLastD TNil) ib
    · rw [getLastD_congr hiane TNil t]
      exact hwb
    · intro i hi
      cases i with
      | zero =>
        have hib1 : 1 ≤ ib.length := by
          simp only [List.length_cons] at hi
          omega
        have hcc := hchain (L - 1) (Nat.le_refl _) (by omega)
        simp only [childCount, List.getD_cons_zero]
        rw [getLastD_eq_getD, hialen]
        have : ia.getD (L - 1) TNil = items.getD (L - 1) TNil := by
          rw [hcat, getD_append_left (by omega)]
        rw [this]
        exact hcc
      | succ i' =>
        have hib2 : i' + 2 ≤ ib.length := by
          simp only [List.length_cons] at hi
          omega
        have hib : items.getD (L + i') TNil = ib.getD i' TNil := by
          rw [hcat, getD_append_right2 (by omega), hialen]
          congr 1
          omega
        have hcc := hchain (L + i') (by omega) (by omega)
        simp only [childCount, List.getD_cons_succ]
        rw [← hib]
        exact hcc
    · cases hib0 : ib with
      | nil =>
        rw [List.getLastD_cons, List.getLastD_nil]
        rw [hib0, List.append_nil] at hcat
        rw [← hcat]
        exact hleaf
      | cons b bs =>
        rw [List.getLastD_cons]
        have : (b :: bs).getLastD (ia.getLastD TNil) = items.getLastD TNil := by
          rw [getLastD_congr (by simp) (ia.getLastD TNil) TNil, hcat, hib0]
          rw [getLastD_append_right (by simp)]
        rw [this]
        exact hleaf
  rw [find_walk (key.take L) t ia hptake hwa, hfa]
  simp [List.take_append_drop]

/-- C2: for every trie, every key present as a true leaf (the node
reached by consuming all of it has no children) and every `minlen ≥ 1`,
`find(shorten(key, minlen))` resolves to the unique full key. -/
theorem find_shorten_roundtrip (t : Trie) (kk : List Char) (minlen : Nat)
    (items : List Trie)
    (hm : 1 ≤ minlen) (hne : kk ≠ [])
    (hw : walkItems t kk = some items)
    (hleaf : (items.getLastD TNil).children = []) :
    ∃ p, t.shorten kk minlen = .pre p ∧ t.find p = .str kk := by
  have hlen := walk_length hw
  have hk1 : 1 ≤ kk.length := by
    cases kk with
    | nil => exact absurd rfl hne
    | cons a l => simp
  refine ⟨_, shorten_eq_pre hne hw hleaf minlen, ?_⟩
  have htake : kk.take (max (shortenOff items) minlen) =
      kk.take (min (max (shortenOff items) minlen) kk.length) := by
    rw [List.take_eq_take]
    omega
  rw [htake]
  apply find_take_unique t kk items (min (max (shortenOff items) minlen) kk.length) hw hleaf
  · omega
  · omega
  · intro i hi1 hi2
    rw [shortenOff] at hi1
    by_cases h2 : 2 ≤ items.length
    · rw [if_pos h2] at hi1
      rcases scanOffset_spec items (items.length - 2) with ⟨h0, hall⟩ | ⟨j, hj, he, hone, hup⟩
      · exact hall i (by omega)
      · rw [he] at hi1
        exact hup i (by omega) (by omega)
    · exfalso
      omega

theorem find_shorten_roundtrip_app :
    T45.shorten (String.toList "12345678") 4 = SRes.pre (String.toList "12345") ∧
      T45.find (String.toList "12345") = FRes.str (String.toList "12345678") := by
  obtain ⟨p, h1, h2⟩ := find_shorten_roundtrip T45 (String.toList "12345678") 4
    ((walkItems T45 (String.toList "12345678")).getD []) (by decide) (by decide) rfl rfl
  have hp : p = String.toList "12345" := by
    have h1' : SRes.pre (String.toList "12345") = SRes.pre p := by
      rw [← h1]
      rfl
    injection h1' with h''
    exact h''.symm
  rw [hp] at h1 h2
  exact ⟨h1, h2⟩

/-! ### The recursion-finishing phase of `find` on a run ending at a branch -/

theorem findAux_chain_amb : ∀ (ext : List Char) (n : Trie) (its2 : List Trie),
    walkItems n ext = some its2 →
    (∀ i, i + 1 < (n :: its2).length → childCount (n :: its2) i = 1) →
    2 ≤ ((n :: its2).getLastD TNil).children.length →
    n.findAux = .amb ext ((n :: its2).getLastD TNil) := by
  intro ext
  induction ext with
  | nil =>
    intro n its2 hw hchain hbr
    have hits : its2 = [] := by
      simp only [walkItems, Option.some.injEq] at hw
      exact hw.symm
    subst hits
    rw [List.getLastD_cons, List.getLastD_nil] at hbr ⊢
    obtain ⟨cs⟩ := n
    simp only [Trie.children] at hbr
    cases cs with
    | nil => simp at hbr
    | cons p rest =>
      cases rest with
      | nil => simp at hbr
      | cons q r => rfl
  | cons ch rest ih =>
    intro n its2 hw hchain hbr
    cases hl : lookupA n.children ch with
    | none =>
      simp only [walkItems, hl] at hw
      exact Option.noConfusion hw
    | some child =>
      simp only [walkItems, hl] at hw
      cases hwr : walkItems child rest with
      | none =>
        rw [hwr] at hw
        exact absurd hw (by simp)
      | some l =>
        rw [hwr] at hw
        simp only [Option.map_some', Option.some.injEq] at hw
        subst hw
        have hn1 : n.children.length = 1 := by
          have := hchain 0 (by simp)
          simpa [childCount] using this
        obtain ⟨a, b, hab⟩ := children_length_one hn1
        rw [hab] at hl
        obtain ⟨hax, hby⟩ := lookupA_singleton hl
        have hrec : child.findAux = .amb rest ((child :: l).getLastD TNil) := by
          apply ih child l hwr
          · intro i hi
            have := hchain (i + 1) (by simp at hi ⊢; omega)
            simpa [childCount, List.getD_cons_succ] using this
          · rw [List.getLastD_cons] at hbr
            rw [getLastD_congr (by simp : (child :: l) ≠ []) TNil n]
            exact hbr
        obtain ⟨cs⟩ := n
        simp only [Trie.children] at hab
        subst hab
        show Trie.findAux (.node [(a, b)]) = _
        rw [Trie.findAux, hby, hrec, hax]
        rfl

/-- C3 counterexample: the claim (and spec scenario 3) say the string
component of an `Ambiguous` result is only the run consumed beyond the
given prefix, so `find("c")` should be `Ambiguous("", node)` after
inserting `"larry"`, `"moe"`, `"curly"`, `"clinton"`.  The code instead
returns the whole consumed prefix: the component of `find("c")` is `"c"`,
not `""` (the class doctest `found[0] == 'c'` agrees). -/
theorem find_ambiguous_component_cex :
    ambExt (T3.find (String.toList "c")) = some (String.toList "c") ∧
      (String.toList "c") ≠ ([] : List Char) := ⟨rfl, by decide⟩

/-- C3 (amended): when `find(prefix)` reaches, after consuming `prefix`
and extending through a run of single-child nodes, a node with two or
more children, it returns `Ambiguous` whose symbol-sequence component is
the given prefix followed by the symbols of that run — the full extended
prefix, not just the extension — plus the branching node itself. -/
theorem find_ambiguous_extended (t : Trie) (p ext : List Char)
    (pits its2 : List Trie)
    (hne : p ≠ [])
    (hw : walkItems t p = some pits)
    (hw2 : walkItems (pits.getLastD TNil) ext = some its2)
    (hchain : ∀ i, i + 1 < ((pits.getLastD TNil) :: its2).length →
        childCount ((pits.getLastD TNil) :: its2) i = 1)
    (hbr : 2 ≤ (((pits.getLastD TNil) :: its2).getLastD TNil).children.length) :
    t.find p = .amb (p ++ ext) (((pits.getLastD TNil) :: its2).getLastD TNil) := by
  rw [find_walk p t pits hne hw]
  rw [findAux_chain_amb ext _ its2 hw2 hchain hbr]

theorem find_ambiguous_extended_app :
    T3.find (String.toList "c") =
      FRes.amb (String.toList "c")
        (((walkItems T3 (String.toList "c")).getD []).getLastD TNil) := by
  have h := find_ambiguous_extended T3 (String.toList "c") []
    ((walkItems T3 (String.toList "c")).getD []) [] (by decide) rfl rfl
    (by
      intro i hi
      simp only [List.length_cons, List.length_nil] at hi
      omega)
    (by decide)
  exact h

/-! ### Well-formedness and association-list facts -/

theorem wf_node {cs : List (Char × Trie)} (h : Trie.wf (.node cs) = true) :
    (cs.map Prod.fst).Nodup ∧ wfL cs = true := by
  simp only [Trie.wf, Bool.and_eq_true, decide_eq_true_eq] at h
  exact h

theorem wfL_mem : ∀ {cs : List (Char × Trie)}, wfL cs = true →
    ∀ {p : Char × Trie}, p ∈ cs → p.2.wf = true := by
  intro cs
  induction cs with
  | nil =>
    intro _ p hp
    simp at hp
  | cons q rest ih =>
    intro h p hp
    obtain ⟨qc, qv⟩ := q
    simp only [wfL, Bool.and_eq_true] at h
    rcases List.mem_cons.mp hp with he | hm
    · rw [he]
      exact h.1
    · exact ih h.2 hm

theorem lookupA_mem : ∀ {cs : List (Char × Trie)} {ch : Char} {v : Trie},
    lookupA cs ch = some v → (ch, v) ∈ cs := by
  intro cs
  induction cs with
  | nil =>
    intro ch v h
    simp [lookupA] at h
  | cons p rest ih =>
    intro ch v h
    obtain ⟨pc, pv⟩ := p
    simp only [lookupA] at h
    by_cases hpc : pc = ch
    · rw [if_pos hpc] at h
      injection h with h'
      exact List.mem_cons.mpr (Or.inl (by rw [hpc, h']))
    · rw [if_neg hpc] at h
      exact List.mem_cons.mpr (Or.inr (ih h))

theorem setA_not_mem : ∀ {cs : List (Char × Trie)} {ch : Char},
    (∀ q ∈ cs, q.1 ≠ ch) → ∀ (v : Trie), setA cs ch v = cs := by
  intro cs
  induction cs with
  | nil => intro _ _ _; rfl
  | cons p rest ih =>
    intro ch h v
    simp only [setA, List.map_cons]
    rw [if_neg (h p (by simp))]
    congr 1
    exact ih (fun q hq => h q (by simp [hq])) v

theorem setA_self : ∀ {cs : List (Char × Trie)}, (cs.map Prod.fst).Nodup →
    ∀ {ch : Char} {v : Trie}, lookupA cs ch = some v → setA cs ch v = cs := by
  intro cs
  induction cs with
  | nil =>
    intro _ ch v h
    simp [lookupA] at h
  | cons p rest ih =>
    intro hnd ch v hl
    obtain ⟨pc, pv⟩ := p
    simp only [List.map_cons, List.nodup_cons] at hnd
    simp only [lookupA] at hl
    simp only [setA, List.map_cons]
    by_cases hpc : pc = ch
    · rw [if_pos hpc] at hl ⊢
      injection hl with h'
      have hrest : setA rest ch v = rest := by
        apply setA_not_mem
        intro q hq heq
        exact hnd.1 (by
          rw [hpc]
          rw [← heq]
          exact List.mem_map.mpr ⟨q, hq, rfl⟩)
      show (ch, v) :: setA rest ch v = (pc, pv) :: rest
      rw [hrest, hpc, h']
    · rw [if_neg hpc] at hl ⊢
      show (pc, pv) :: setA rest ch v = (pc, pv) :: rest
      rw [ih hnd.2 hl]

/-! ### Re-inserting a key whose path already exists -/

theorem walk_cons_isSome {t : Trie} {ch : Char} {rest : List Char}
    (h : (walkItems t (ch :: rest)).isSome = true) :
    ∃ child, lookupA t.children ch = some child ∧
      (walkItems child rest).isSome = true := by
  cases hl : lookupA t.children ch with
  | none =>
    simp only [walkItems, hl] at h
    exact absurd h (by simp)
  | some child =>
    simp only [walkItems, hl] at h
    refine ⟨child, rfl, ?_⟩
    cases hw : walkItems child rest with
    | none =>
      rw [hw] at h
      simp at h
    | some l => simp

theorem insertNE_existing : ∀ (rest : List Char) (t : Trie) (ch : Char),
    t.wf = true → (walkItems t (ch :: rest)).isSome = true →
    t.insertNE ch rest = t := by
  intro rest
  induction rest with
  | nil =>
    intro t ch hwf hws
    obtain ⟨cs⟩ := t
    obtain ⟨child, hl, _⟩ := walk_cons_isSome hws
    simp only [Trie.children] at hl
    have hsome : (lookupA cs ch).isSome = true := by
      rw [hl]
      rfl
    show Trie.insertNE (.node cs) ch [] = .node cs
    simp only [Trie.insertNE]
    rw [if_pos hsome]
  | cons r rs ih =>
    intro t ch hwf hws
    obtain ⟨cs⟩ := t
    obtain ⟨child, hl, hrest⟩ := walk_cons_isSome hws
    simp only [Trie.children] at hl
    have hsome : (lookupA cs ch).isSome = true := by
      rw [hl]
      rfl
    have hwfn := wf_node hwf
    have hcwf : child.wf = true := wfL_mem hwfn.2 (lookupA_mem hl)
    have hchild : child.insertNE r rs = child := ih child r hcwf hrest
    show Trie.insertNE (.node cs) ch (r :: rs) = .node cs
    simp only [Trie.insertNE]
    rw [if_pos hsome, hl]
    simp only [Option.getD_some]
    rw [hchild, setA_self hwfn.1 hl]

/-- C7: inserting a key whose root-down path is already present in a trie
(in particular, re-inserting an already inserted key) leaves the trie
value unchanged, so `prefixes(minlen)` for every `minlen` and
`shorten(k, m)` for every key and floor are unchanged as well. -/
theorem insert_existing_noop (t : Trie) (k : List Char)
    (hwf : t.wf = true) (hne : k ≠ []) (hp : (walkItems t k).isSome = true) :
    t.insert k = some t ∧
    ∀ t', t.insert k = some t' →
      (∀ acc m, t'.prefixes acc m = t.prefixes acc m) ∧
      (∀ k2 m, t'.shorten k2 m = t.shorten k2 m) := by
  cases k with
  | nil => exact absurd rfl hne
  | cons ch rest =>
    have hid : t.insertNE ch rest = t := insertNE_existing rest t ch hwf hp
    constructor
    · show some (t.insertNE ch rest) = some t
      rw [hid]
    · intro t' ht'
      have ht : t' = t := by
        have hs : some (t.insertNE ch rest) = some t' := ht'
        rw [hid] at hs
        exact (Option.some.inj hs).symm
      subst ht
      exact ⟨fun _ _ => rfl, fun _ _ => rfl⟩

theorem insert_existing_noop_app :
    T45.insert (String.toList "12345678") = some T45 :=
  (insert_existing_noop T45 (String.toList "12345678") (by decide) (by decide)
    (by decide)).1

/-! ### Insertion only grows the trie -/

theorem lookupA_append_some : ∀ {cs : List (Char × Trie)} {ch : Char} {v : Trie}
    (l : List (Char × Trie)), lookupA cs ch = some v → lookupA (cs ++ l) ch = some v := by
  intro cs
  induction cs with
  | nil =>
    intro ch v l h
    simp [lookupA] at h
  | cons p rest ih =>
    intro ch v l h
    obtain ⟨pc, pv⟩ := p
    simp only [lookupA, List.cons_append] at h ⊢
    by_cases hpc : pc = ch
    · rw [if_pos hpc] at h ⊢
      exact h
    · rw [if_neg hpc] at h ⊢
      exact ih l h

theorem lookupA_setA_self : ∀ {cs : List (Char × Trie)} {ch : Char} {c : Trie},
    lookupA cs ch = some c → ∀ (v : Trie), lookupA (setA cs ch v) ch = some v := by
  intro cs
  induction cs with
  | nil =>
    intro ch c h
    simp [lookupA] at h
  | cons p rest ih =>
    intro ch c h v
    obtain ⟨pc, pv⟩ := p
    simp only [lookupA] at h
    simp only [setA, List.map_cons]
    by_cases hpc : pc = ch
    · rw [if_pos hpc]
      simp [lookupA]
    · rw [if_neg hpc] at h ⊢
      simp only [lookupA]
      rw [if_neg hpc]
      exact ih h v

theorem lookupA_setA_ne : ∀ (cs : List (Char × Trie)) {x ch : Char},
    x ≠ ch → ∀ (v : Trie), lookupA (setA cs ch v) x = lookupA cs x := by
  intro cs
  induction cs with
  | nil =>
    intro x ch _ v
    rfl
  | cons p rest ih =>
    intro x ch hx v
    obtain ⟨pc, pv⟩ := p
    simp only [setA, List.map_cons]
    by_cases hpc : pc = ch
    · rw [if_pos hpc]
      simp only [lookupA]
      rw [if_neg ?h1, if_neg ?h2]
      · exact ih hx v
      case h1 => exact fun he => hx he.symm
      case h2 =>
        intro he
        apply hx
        rw [← he, hpc]
    · rw [if_neg hpc]
      simp only [lookupA]
      by_cases hpx : pc = x
      · rw [if_pos hpx, if_pos hpx]
      · rw [if_neg hpx, if_neg hpx]
        exact ih hx v

theorem insertNE_nil_eq (cs : List (Char × Trie)) (ch : Char) :
    Trie.insertNE (.node cs) ch [] =
      .node (if (lookupA cs ch).isSome then cs else cs ++ [(ch, TNil)]) := rfl

theorem insertNE_cons_eq (cs : List (Char × Trie)) (ch r : Char) (rs : List Char) :
    Trie.insertNE (.node cs) ch (r :: rs) =
      .node (setA (if (lookupA cs ch).isSome then cs else cs ++ [(ch, TNil)]) ch
        (((lookupA (if (lookupA cs ch).isSome then cs else cs ++ [(ch, TNil)]) ch).getD
          TNil).insertNE r rs)) := rfl

theorem subAt_grows : ∀ (rest : List Char) (t : Trie) (ch : Char) (path : List Char),
    (subAt t path).isSome = true →
    (subAt (t.insertNE ch rest) path).isSome = true := by
  intro rest
  induction rest with
  | nil =>
    intro t ch path hp
    obtain ⟨cs⟩ := t
    rw [insertNE_nil_eq]
    cases path with
    | nil => simp [subAt]
    | cons x ps =>
      cases hl : lookupA cs x with
      | none =>
        simp only [subAt, Trie.children, hl] at hp
        exact absurd hp (by simp)
      | some c =>
        simp only [subAt, Trie.children, hl] at hp
        by_cases hsome : (lookupA cs ch).isSome
        · rw [if_pos hsome]
          simp only [subAt, Trie.children, hl]
          exact hp
        · rw [if_neg hsome]
          have hl' : lookupA (cs ++ [(ch, TNil)]) x = some c := lookupA_append_some _ hl
          simp only [subAt, Trie.children, hl']
          exact hp
  | cons r rs ih =>
    intro t ch path hp
    obtain ⟨cs⟩ := t
    rw [insertNE_cons_eq]
    cases path with
    | nil => simp [subAt]
    | cons x ps =>
      cases hl : lookupA cs x with
      | none =>
        simp only [subAt, Trie.children, hl] at hp
        exact absurd hp (by simp)
      | some c =>
        simp only [subAt, Trie.children, hl] at hp
        by_cases hx : x = ch
        · subst hx
          have hsome : (lookupA cs x).isSome := by
            rw [hl]
            rfl
          rw [if_pos hsome, hl]
          simp only [Option.getD_some]
          have hlk : lookupA (setA cs x (c.insertNE r rs)) x = some (c.insertNE r rs) :=
            lookupA_setA_self hl _
          simp only [subAt, Trie.children, hlk]
          exact ih c r ps hp
        · have hl1 : lookupA (if (lookupA cs ch).isSome then cs else cs ++ [(ch, TNil)]) x
              = some c := by
            by_cases hsome : (lookupA cs ch).isSome
            · rw [if_pos hsome]
              exact hl
            · rw [if_neg hsome]
              exact lookupA_append_some _ hl
          have hlk : lookupA (setA (if (lookupA cs ch).isSome then cs
              else cs ++ [(ch, TNil)]) ch
              (((lookupA (if (lookupA cs ch).isSome then cs else cs ++ [(ch, TNil)]) ch).getD
                TNil).insertNE r rs)) x = some c := by
            rw [lookupA_setA_ne _ hx]
            exact hl1
          simp only [subAt, Trie.children, hlk]
          exact hp

theorem subAt_append_one : ∀ (path : List Char) (t : Trie) (ch : Char),
    subAt t (path ++ [ch]) = (subAt t path).bind (fun n => lookupA n.children ch) := by
  intro path
  induction path with
  | nil =>
    intro t ch
    cases hl : lookupA t.children ch with
    | none => simp [subAt, hl]
    | some c => simp [subAt, hl]
  | cons x ps ih =>
    intro t ch
    rw [List.cons_append]
    cases hl : lookupA t.children x with
    | none => simp [subAt, hl]
    | some c =>
      simp only [subAt, hl]
      exact ih c ch

/-- C9: after a (successful) insertion, every node reachable by a
root-to-node path before the insertion is still reachable, and each such
node's children mapping still has an entry for every symbol it had one
for — insertion only adds, never removes or rebalances. -/
theorem insert_only_grows (t t' : Trie) (k : List Char)
    (hi : t.insert k = some t') (path : List Char) (n : Trie)
    (hn : subAt t path = some n) :
    ∃ n', subAt t' path = some n' ∧
      ∀ ch, (lookupA n.children ch).isSome = true →
        (lookupA n'.children ch).isSome = true := by
  cases k with
  | nil => simp [Trie.insert] at hi
  | cons c0 rest =>
    have ht' : t' = t.insertNE c0 rest := by
      have hs : some (t.insertNE c0 rest) = some t' := hi
      exact (Option.some.inj hs).symm
    subst ht'
    have h1 : (subAt (t.insertNE c0 rest) path).isSome = true :=
      subAt_grows rest t c0 path (by rw [hn]; rfl)
    cases hs : subAt (t.insertNE c0 rest) path with
    | none =>
      rw [hs] at h1
      simp at h1
    | some n' =>
      refine ⟨n', rfl, ?_⟩
      intro ch hch
      have h2 : (subAt t (path ++ [ch])).isSome = true := by
        rw [subAt_append_one, hn]
        simpa using hch
      have h3 := subAt_grows rest t c0 (path ++ [ch]) h2
      rw [subAt_append_one, hs] at h3
      simpa using h3

theorem insert_only_grows_app :
    (subAt ((Tab.insert (String.toList "ax")).getD TNil) (String.toList "a")).isSome
      = true := by
  obtain ⟨n', h1, _⟩ := insert_only_grows Tab ((Tab.insert (String.toList "ax")).getD TNil)
    (String.toList "ax") rfl (String.toList "a")
    ((subAt Tab (String.toList "a")).getD TNil) rfl
  rw [h1]
  rfl

/-! ### Disjointness of `prefixes` at `minlen = 0` -/

theorem prefixes_node_eq (cs : List (Char × Trie)) (acc : List Char) (m : Nat) :
    Trie.prefixes (.node cs) acc m =
      if cs.length = 0 then {acc}
      else if cs.length = 1 ∧ m ≤ acc.length then {acc}
      else prefixesL cs acc m := rfl

theorem mem_prefixesL : ∀ (cs : List (Char × Trie)) (acc x : List Char) (m : Nat),
    x ∈ prefixesL cs acc m ↔ ∃ p ∈ cs, x ∈ p.2.prefixes (acc ++ [p.1]) m := by
  intro cs
  induction cs with
  | nil =>
    intro acc x m
    simp [prefixesL]
  | cons p rest ih =>
    intro acc x m
    obtain ⟨pc, pv⟩ := p
    simp only [prefixesL, Finset.mem_union, ih, List.mem_cons]
    constructor
    · rintro (h | ⟨q, hq, hxq⟩)
      · exact ⟨(pc, pv), Or.inl rfl, h⟩
      · exact ⟨q, Or.inr hq, hxq⟩
    · rintro ⟨q, hq | hq, hxq⟩
      · subst hq
        exact Or.inl hxq
      · exact Or.inr ⟨q, hq, hxq⟩

theorem prefixes_extends : ∀ (N : Nat) (t : Trie) (acc : List Char) (m : Nat),
    sizeOf t ≤ N → ∀ x ∈ t.prefixes acc m, acc <+: x := by
  intro N
  induction N with
  | zero =>
    intro t acc m hsz
    obtain ⟨cs⟩ := t
    rw [Trie.node.sizeOf_spec] at hsz
    omega
  | succ N ih =>
    intro t acc m hsz x hx
    obtain ⟨cs⟩ := t
    rw [prefixes_node_eq] at hx
    by_cases h0 : cs.length = 0
    · rw [if_pos h0] at hx
      simp only [Finset.mem_singleton] at hx
      subst hx
      exact List.prefix_rfl
    · rw [if_neg h0] at hx
      by_cases h1 : cs.length = 1 ∧ m ≤ acc.length
      · rw [if_pos h1] at hx
        simp only [Finset.mem_singleton] at hx
        subst hx
        exact List.prefix_rfl
      · rw [if_neg h1] at hx
        obtain ⟨p, hp, hxp⟩ := (mem_prefixesL cs acc x m).mp hx
        obtain ⟨pc, pv⟩ := p
        have hszv : sizeOf pv ≤ N := by
          have hm := List.sizeOf_lt_of_mem hp
          simp only [Prod.mk.sizeOf_spec] at hm
          rw [Trie.node.sizeOf_spec] at hsz
          omega
        have hext := ih pv (acc ++ [pc]) m hszv x hxp
        exact List.IsPrefix.trans (List.prefix_append acc [pc]) hext

theorem nodup_key_entry : ∀ {cs : List (Char × Trie)}, (cs.map Prod.fst).Nodup →
    ∀ {p q : Char × Trie}, p ∈ cs → q ∈ cs → p.1 = q.1 → p = q := by
  intro cs
  induction cs with
  | nil =>
    intro _ p q hp
    simp at hp
  | cons a rest ih =>
    intro hnd p q hp hq hpq
    simp only [List.map_cons, List.nodup_cons] at hnd
    rcases List.mem_cons.mp hp with hp1 | hp2 <;> rcases List.mem_cons.mp hq with hq1 | hq2
    · rw [hp1, hq1]
    · exfalso
      apply hnd.1
      rw [hp1] at hpq
      rw [hpq]
      exact List.mem_map.mpr ⟨q, hq2, rfl⟩
    · exfalso
      apply hnd.1
      rw [hq1] at hpq
      rw [← hpq]
      exact List.mem_map.mpr ⟨p, hp2, rfl⟩
    · exact ih hnd.2 hp2 hq2 hpq

theorem prefixes_disjoint_aux : ∀ (N : Nat) (t : Trie) (acc : List Char),
    sizeOf t ≤ N → t.wf = true →
    ∀ x ∈ t.prefixes acc 0, ∀ y ∈ t.prefixes acc 0, x <+: y → x = y := by
  intro N
  induction N with
  | zero =>
    intro t acc hsz
    obtain ⟨cs⟩ := t
    rw [Trie.node.sizeOf_spec] at hsz
    omega
  | succ N ih =>
    intro t acc hsz hwf x hx y hy hxy
    obtain ⟨cs⟩ := t
    rw [prefixes_node_eq] at hx hy
    by_cases h0 : cs.length = 0
    · rw [if_pos h0] at hx hy
      simp only [Finset.mem_singleton] at hx hy
      rw [hx, hy]
    · rw [if_neg h0] at hx hy
      by_cases h1 : cs.length = 1 ∧ (0 : Nat) ≤ acc.length
      · rw [if_pos h1] at hx hy
        simp only [Finset.mem_singleton] at hx hy
        rw [hx, hy]
      · rw [if_neg h1] at hx hy
        obtain ⟨p, hp, hxp⟩ := (mem_prefixesL cs acc x 0).mp hx
        obtain ⟨q, hq, hyq⟩ := (mem_prefixesL cs acc y 0).mp hy
        have hwfn := wf_node hwf
        have hpx : (acc ++ [p.1]) <+: x :=
          prefixes_extends (sizeOf p.2) p.2 _ 0 (Nat.le_refl _) x hxp
        have hqy : (acc ++ [q.1]) <+: y :=
          prefixes_extends (sizeOf q.2) q.2 _ 0 (Nat.le_refl _) y hyq
        by_cases hpq : p.1 = q.1
        · have hpq' : p = q := nodup_key_entry hwfn.1 hp hq hpq
          subst hpq'
          obtain ⟨pc, pv⟩ := p
          have hszv : sizeOf pv ≤ N := by
            have hm := List.sizeOf_lt_of_mem hp
            simp only [Prod.mk.sizeOf_spec] at hm
            rw [Trie.node.sizeOf_spec] at hsz
            omega
          have hwv : pv.wf = true := wfL_mem hwfn.2 hp
          exact ih pv (acc ++ [pc]) hszv hwv x hxp y hyq hxy
        · exfalso
          have hpy : (acc ++ [p.1]) <+: y := List.IsPrefix.trans hpx hxy
          have heq : (acc ++ [p.1]) = (acc ++ [q.1]) := by
            apply List.IsPrefix.eq_of_length
            · exact List.prefix_of_prefix_length_le hpy hqy (by simp)
            · simp
          have hsingle := List.append_cancel_left heq
          simp only [List.cons.injEq, and_true] at hsingle
          exact hpq hsingle

/-- C8: the set `prefixes(minlen = 0)` (computed from the root with the
empty accumulated prefix) never contains an element that is a proper
prefix of another element: any prefix relation inside the set forces
equality.  The well-formedness hypothesis `wf` records the Python dict
invariant that child symbols at a node are distinct. -/
theorem prefixes_zero_disjoint (t : Trie) (hwf : t.wf = true)
    (x y : List Char) (hx : x ∈ t.prefixes [] 0) (hy : y ∈ t.prefixes [] 0)
    (hxy : x <+: y) : x = y :=
  prefixes_disjoint_aux (sizeOf t) t [] (Nat.le_refl _) hwf x hx y hy hxy

theorem prefixes_zero_disjoint_app :
    String.toList "l" = String.toList "l" :=
  prefixes_zero_disjoint T3 (by decide) (String.toList "l") (String.toList "l")
    (by decide) (by decide) (by decide)
